import Mathlib

/-!
# filecoin-network-sim: the randomizer (`network/randomizer.go`)

A shallow embedding of the pure parts of the simulation driver:

* `getBestDealPair`   : the ask/bid deal matcher,
* `extractUnusedBids` : parsing of an order-book bid response,
* `rollToMine`        : the Bernoulli trial of the mining scheduler,
* `nextRandomType`    : the churn heuristic,
* `growTick`          : the body of the periodic function of `addAndRemoveNodes`,
* `addInitialNodes`   : the bootstrap loop.

Conventions.

* `uint64` identifiers are natural numbers (no arithmetic is performed on them).
* `*types.AttoFIL` and `*types.BytesAmount` are arbitrary-precision integers and are
  modelled by `Int`; a nil amount compares as zero in go-filecoin, so the zero value of a
  record carries `0`.
* `address.Address` is represented by the text that `Owner.String()` yields, the zero
  address by the empty text.
* A finite `float64` is represented by the rational number it denotes; comparisons of
  floats are then comparisons of rationals, and the two operations that round
  (`float64(int)` and `*`) go through `roundFloat64`. The literals `0.001`, `0.999` and
  `1.5` stand for the `float64` values nearest to them.
* `sort.Slice` is a parameter of `getBestDealPair`, constrained by `SortSliceContract`;
  `insertionSort_func` is the instance that Go runs on short slices.
* Calls on the network collaborator (`AddNode`) are recorded as a list of requests.
-/

namespace FilNetSim

/-! ## Data model -/

/-- The node types of `network`: `AnyNodeType` is the query wildcard. -/
inductive NodeType where
  | MinerNodeType
  | ClientNodeType
  | AnyNodeType
  deriving DecidableEq, Repr

/-- The record `sm.Ask` of the storage market. -/
structure Ask where
  Price : Int
  Size : Int
  ID : Nat
  Owner : String
  deriving DecidableEq, Repr

/-- The record `sm.Bid` of the storage market. -/
structure Bid where
  Price : Int
  Size : Int
  ID : Nat
  Owner : String
  Used : Bool
  deriving DecidableEq, Repr

/-- The zero value `sm.Ask{}`. -/
def Ask.zero : Ask := ⟨0, 0, 0, ""⟩

/-- The zero value `sm.Bid{}`. -/
def Bid.zero : Bid := ⟨0, 0, 0, "", false⟩

/-! ## `sort.Slice` -/

/-- The inner loop of `insertionSort_func` in Go's package `sort`: the new element `x` sits
to the right of the sorted part and is swapped leftwards while `less x y` holds for its left
neighbour `y`.
The sorted part is passed right to left (its last element first). -/
def sinkLeft {α : Type} (less : α → α → Bool) (x : α) : List α → List α
  | [] => [x]
  | y :: ys => if less x y then y :: sinkLeft less x ys else x :: y :: ys

/-- The routine `insertionSort_func` of Go's package `sort` over the whole slice: the
elements are taken left to right and each is sunk into the part already sorted. This is all
that `sort.Slice` runs on a slice of at most 6 elements in every Go release (at most 12
since Go 1.19); longer slices go through a quicksort that also meets `SortSliceContract`. -/
def insertionSort_func {α : Type} (less : α → α → Bool) (data : List α) : List α :=
  (data.foldl (fun sortedRev x => sinkLeft less x sortedRev) []).reverse

/-- What `sort.Slice` requires of its `less` argument: a strict weak ordering. -/
def StrictWeak {α : Type} (less : α → α → Bool) : Prop :=
  (∀ x y, less x y = true → less y x = false) ∧
  (∀ x y z, less x y = false → less y z = false → less x z = false)

/-- The documented contract of `sort.Slice`: for a strict weak ordering the result is a
rearrangement of the slice in which no element is `less` than an earlier one. The sort is
not stable, so nothing more is known about elements that compare equal. -/
def SortSliceContract (sortSlice : {α : Type} → (α → α → Bool) → List α → List α) : Prop :=
  ∀ (α : Type) (less : α → α → Bool), StrictWeak less → ∀ l : List α,
    (sortSlice less l).Perm l ∧ (sortSlice less l).Pairwise (fun x y => less y x = false)

/-! ## The deal matcher -/

/-- The lines that `getBestDealPair` writes to the log. -/
inductive LogLine where
  | foundBid (wallet : String) (b : Bid)
  | noBidsForWallet (wallet : String)
  deriving DecidableEq, Repr

/-- The three results of `getBestDealPair` together with the log lines it printed;
`err = none` is Go's `nil` error. -/
structure DealResult where
  ask : Ask
  bid : Bid
  err : Option String
  log : List LogLine
  deriving DecidableEq, Repr

/-- The test of line 403: the bid fits within the ask and offers at least its price. -/
def fits (b : Bid) (a : Ask) : Bool :=
  decide (b.Size ≤ a.Size) && decide (b.Price ≥ a.Price)

/-- The inner loop `for _, a := range asks`: the first ask that the bid fits. -/
def scanAsks (b : Bid) : List Ask → Option Ask
  | [] => none
  | a :: rest => if fits b a then some a else scanAsks b rest

/-- The outer loop `for _, b := range walletBids`: the first bid for which the inner loop
returns. -/
def scanBids (asks : List Ask) : List Bid → Option (Ask × Bid)
  | [] => none
  | b :: rest =>
    match scanAsks b asks with
    | some a => some (a, b)
    | none => scanBids asks rest

/-- The error built on line 413. -/
def noMatchError (wallet : String) : String :=
  "Could not find matching ask / bid for wallet " ++ wallet

/-- The function `getBestDealPair`; `sortSlice` is the library routine `sort.Slice`. -/
def getBestDealPair (sortSlice : {α : Type} → (α → α → Bool) → List α → List α)
    (asks : List Ask) (bids : List Bid) (wallet : String) : DealResult :=
  let bids := sortSlice (fun (x y : Bid) => decide (x.ID < y.ID)) bids
  let asks := sortSlice (fun (x y : Ask) => decide (x.Price < y.Price)) asks
  let walletBids := bids.filter (fun b => b.Owner == wallet)
  let log := walletBids.map (LogLine.foundBid wallet)
  if walletBids.length ≠ 0 then
    match scanBids asks walletBids with
    | some (a, b) => ⟨a, b, none, log⟩
    | none => ⟨Ask.zero, Bid.zero, some (noMatchError wallet), log⟩
  else
    ⟨Ask.zero, Bid.zero, some (noMatchError wallet), log ++ [LogLine.noBidsForWallet wallet]⟩

/-! ## Parsing an order-book response -/

/-- A Go call either returns its two results (`err = none` is the `nil` error) or panics. -/
inductive GoResult (α : Type) where
  | returned (val : α) (err : Option String)
  | panicked
  deriving DecidableEq, Repr

/-- The call `strings.Trim(input, "\n")`: newlines are cut from both ends. -/
def trimNewlines (s : List Char) : List Char :=
  ((s.dropWhile (fun c => c == '\n')).reverse.dropWhile (fun c => c == '\n')).reverse

/-- The call `strings.Split(o, "\n")`: the pieces between the newlines, of which there is
always at least one. -/
def splitNewlines : List Char → List (List Char)
  | [] => [[]]
  | c :: cs =>
    if c == '\n' then [] :: splitNewlines cs
    else
      match splitNewlines cs with
      | [] => [[c]]
      | l :: ls => (c :: l) :: ls

/-- The lines of a response: `strings.Split(strings.Trim(input, "\n"), "\n")`. -/
def responseLines (input : String) : List String :=
  (splitNewlines (trimNewlines input.toList)).map String.mk

/-- The loop of `extractUnusedBids` over the lines, with the slice `bids` built so far;
`unmarshal` is `json.Unmarshal` into a fresh `sm.Bid`, and `none` is the panic of line 458. -/
def extractUnusedBidsLoop (unmarshal : String → Option Bid) :
    List String → List Bid → Option (List Bid)
  | [], bids => some bids
  | b :: rest, bids =>
    match unmarshal b with
    | none => none
    | some bid =>
      if bid.Used then extractUnusedBidsLoop unmarshal rest bids
      else extractUnusedBidsLoop unmarshal rest (bids ++ [bid])

/-- The function `extractUnusedBids`. -/
def extractUnusedBids (unmarshal : String → Option Bid) (input : String) :
    GoResult (List Bid) :=
  let bs := responseLines input
  if bs.length ≤ 1 then GoResult.returned [] (some "No Bids yet")
  else
    match extractUnusedBidsLoop unmarshal bs [] with
    | none => GoResult.panicked
    | some bids => GoResult.returned bids none

/-! ## Floating point -/

/-- Rounding of a positive rational to the nearest number with a 53-bit significand, ties
going to the even significand: the rounding of IEEE 754 binary64 on its normal range. -/
def roundPos (x : ℚ) : ℚ :=
  let e : ℤ := Int.log 2 x
  let ulp : ℚ := (2 : ℚ) ^ (e - 52)
  let q : ℚ := x / ulp
  let n : ℤ := ⌊q⌋
  let r : ℚ := q - n
  let k : ℤ := if r < 1 / 2 then n else if 1 / 2 < r then n + 1 else if n % 2 = 0 then n else n + 1
  k * ulp

/-- Rounding to `float64` of a rational whose magnitude is zero or within the normal range
(at least `2^-1022` and below `2^1024`). -/
def roundFloat64 (x : ℚ) : ℚ :=
  if x = 0 then 0 else if 0 < x then roundPos x else -roundPos (-x)

/-- The conversion `float64(n)` of an `int`. -/
def float64OfInt (n : Int) : ℚ := roundFloat64 n

/-- The product `x * y` of two `float64` values. -/
def mulFloat64 (x y : ℚ) : ℚ := roundFloat64 (x * y)

/-- The constant `0.001` as a `float64`: `0x1.0624dd2f1a9fcp-10`. -/
def float64_0_001 : ℚ := 1152921504606847 / 1152921504606846976

/-- The constant `0.999` as a `float64`: `0x1.ff7ced916872bp-1`. -/
def float64_0_999 : ℚ := 8998192055486251 / 9007199254740992

/-- The constant `1.5` as a `float64`. -/
def float64_1_5 : ℚ := 3 / 2

/-! ## The schedulers -/

/-- The fields of `Args` that the embedded functions read. -/
structure Args where
  StartNodes : Int
  MaxNodes : Int
  ForkBranching : Int
  ForkProbability : ℚ

/-- What the randomizer observes of the network collaborator: `Size()` and
`GetNodeCounts()`. -/
structure Network where
  Size : Int
  GetNodeCounts : NodeType → Int

/-- The function `nextRandomType`. -/
def nextRandomType (n : Network) : NodeType :=
  let c := n.GetNodeCounts
  if float64OfInt (c NodeType.ClientNodeType)
      < mulFloat64 (float64OfInt (c NodeType.MinerNodeType)) float64_1_5 then
    NodeType.ClientNodeType
  else
    NodeType.AnyNodeType

/-- The loop of `addInitialNodes`: the type passed to `AddNode` by the task started at each
index `i`, listed by index. -/
def addInitialNodes (args : Args) : List NodeType :=
  (List.range args.StartNodes.toNat).map (fun i =>
    let t := NodeType.ClientNodeType
    let t := if i % 2 = 0 then NodeType.MinerNodeType else t
    t)

/-- The periodic function of `addAndRemoveNodes` (one tick of the grow loop): the list of
types passed to `AddNode`. -/
def addAndRemoveNodesTick (net : Network) (args : Args) : List NodeType :=
  if net.Size ≥ args.MaxNodes then []
  else
    let t := nextRandomType net
    [t]

/-- The function `rollToMine`; `roll` is the value that `rand.Float64()` yields when it is
called, a number in `[0, 1)`. -/
def rollToMine (probability : ℚ) (roll : ℚ) : Bool :=
  if probability < float64_0_001 then false
  else if probability > float64_0_999 then true
  else decide (roll < probability)

/-- The loop of the periodic function of `mineBlocks` over the drawn miners `nds`
(lines 183-192): the indices of the iterations in which a mining task is started
(`wg.Add(1); go func ...`); `rolls i` is the draw made in iteration `i`. The task reads the
range variable `n` when it runs, concurrently with the loop, so the miner on which it calls
`MiningOnce` is not determined by the loop and is not part of this result. -/
def mineBlocksLoop {node : Type} (args : Args) (rolls : Nat → ℚ) :
    Nat → List node → List Nat
  | _, [] => []
  | i, _ :: rest =>
    if rollToMine args.ForkProbability (rolls i) then i :: mineBlocksLoop args rolls (i + 1) rest
    else mineBlocksLoop args rolls (i + 1) rest

/-! ## Sample order books -/

/-- An ask of price 13 for 40 units. -/
def askA : Ask := ⟨13, 40, 0, "miner1"⟩

/-- A second ask at the same price and size, with another identifier. -/
def askB : Ask := ⟨13, 40, 1, "miner2"⟩

/-- A dearer and larger ask. -/
def askC : Ask := ⟨20, 46, 2, "miner1"⟩

/-- A bid of `wallet1` that fits `askA` and `askB`. -/
def bidA : Bid := ⟨15, 35, 0, "wallet1", false⟩

/-- A bid of `wallet1` whose price is below every sample ask. -/
def bidB : Bid := ⟨5, 35, 1, "wallet1", false⟩

/-- A second bid of `wallet1` carrying the identifier of `bidA`. -/
def bidD : Bid := ⟨16, 36, 0, "wallet1", false⟩

/-- A bid of another wallet. -/
def bidC : Bid := ⟨15, 35, 2, "wallet2", false⟩

/-- A bid of `wallet1` that a prior deal has consumed. -/
def bidU : Bid := ⟨15, 35, 3, "wallet1", true⟩

/-- A decoder for three sample lines, standing for `json.Unmarshal` on their records; any
other line is malformed. -/
def sampleUnmarshal (line : String) : Option Bid :=
  if line = "A" then some bidA
  else if line = "U" then some bidU
  else if line = "C" then some bidC
  else none

/-- A count map with the given `MinerNodeType` and `ClientNodeType` entries. -/
def countsOf (miners clients : Int) : NodeType → Int
  | NodeType.MinerNodeType => miners
  | NodeType.ClientNodeType => clients
  | NodeType.AnyNodeType => miners + clients

/-- A network view with the given numbers of live miners and clients. -/
def networkOf (miners clients : Int) : Network :=
  ⟨miners + clients, countsOf miners clients⟩

/-! ## Lemmas on the sort -/

theorem sinkLeft_perm {α : Type} (less : α → α → Bool) (x : α) (l : List α) :
    (sinkLeft less x l).Perm (x :: l) := by
  induction l with
  | nil => simp [sinkLeft]
  | cons y ys ih =>
    simp only [sinkLeft]
    split
    · exact (List.Perm.cons y ih).trans (List.Perm.swap x y ys)
    · exact List.Perm.refl _

theorem sinkLeft_pairwise {α : Type} (less : α → α → Bool) (hw : StrictWeak less) (x : α)
    (l : List α) (hl : l.Pairwise (fun a b => less a b = false)) :
    (sinkLeft less x l).Pairwise (fun a b => less a b = false) := by
  induction l with
  | nil => simp [sinkLeft]
  | cons y ys ih =>
    have hl0 := hl
    rw [List.pairwise_cons] at hl
    simp only [sinkLeft]
    split
    · rename_i hxy
      rw [List.pairwise_cons]
      refine ⟨?_, ih hl.2⟩
      intro z hz
      rcases List.mem_cons.mp ((sinkLeft_perm less x ys).mem_iff.mp hz) with hzx | hzy
      · rw [hzx]; exact hw.1 x y hxy
      · exact hl.1 z hzy
    · rename_i hxy
      have hxy0 : less x y = false := by simpa using hxy
      rw [List.pairwise_cons]
      refine ⟨?_, hl0⟩
      intro z hz
      rcases List.mem_cons.mp hz with hzy | hzy
      · rw [hzy]; exact hxy0
      · exact hw.2 x y z hxy0 (hl.1 z hzy)

theorem foldl_sinkLeft_perm {α : Type} (less : α → α → Bool) (data acc : List α) :
    (data.foldl (fun sortedRev x => sinkLeft less x sortedRev) acc).Perm (data ++ acc) := by
  induction data generalizing acc with
  | nil => simp
  | cons x xs ih =>
    simp only [List.foldl_cons]
    refine (ih _).trans ?_
    refine (List.Perm.append_left xs (sinkLeft_perm less x acc)).trans ?_
    simp

theorem foldl_sinkLeft_pairwise {α : Type} (less : α → α → Bool) (hw : StrictWeak less)
    (data acc : List α) (hacc : acc.Pairwise (fun a b => less a b = false)) :
    (data.foldl (fun sortedRev x => sinkLeft less x sortedRev) acc).Pairwise
      (fun a b => less a b = false) := by
  induction data generalizing acc with
  | nil => simpa using hacc
  | cons x xs ih =>
    simp only [List.foldl_cons]
    exact ih _ (sinkLeft_pairwise less hw x acc hacc)

/-- Go's insertion sort meets the contract of `sort.Slice`. -/
theorem insertionSort_func_contract : SortSliceContract (@insertionSort_func) := by
  intro α less hw l
  constructor
  · unfold insertionSort_func
    refine (List.reverse_perm _).trans ?_
    simpa using foldl_sinkLeft_perm less l []
  · unfold insertionSort_func
    rw [List.pairwise_reverse]
    exact foldl_sinkLeft_pairwise less hw l [] List.Pairwise.nil

theorem strictWeak_bidLess : StrictWeak (fun (x y : Bid) => decide (x.ID < y.ID)) := by
  constructor
  · intro x y h
    simp only [decide_eq_true_eq, decide_eq_false_iff_not] at *
    omega
  · intro x y z h1 h2
    simp only [decide_eq_true_eq, decide_eq_false_iff_not] at *
    omega

theorem strictWeak_askLess : StrictWeak (fun (x y : Ask) => decide (x.Price < y.Price)) := by
  constructor
  · intro x y h
    simp only [decide_eq_true_eq, decide_eq_false_iff_not] at *
    omega
  · intro x y z h1 h2
    simp only [decide_eq_true_eq, decide_eq_false_iff_not] at *
    omega

/-! ## Lemmas on the matcher -/

theorem fits_iff (b : Bid) (a : Ask) :
    fits b a = true ↔ b.Size ≤ a.Size ∧ b.Price ≥ a.Price := by
  simp [fits]

theorem scanAsks_none (b : Bid) (asks : List Ask) :
    scanAsks b asks = none ↔ ∀ a ∈ asks, fits b a = false := by
  induction asks with
  | nil => simp [scanAsks]
  | cons a rest ih =>
    simp only [scanAsks, List.mem_cons, forall_eq_or_imp]
    by_cases hf : fits b a = true
    · simp [hf]
    · simp [hf, ih]

theorem scanAsks_some (b : Bid) (asks : List Ask) (a : Ask) (h : scanAsks b asks = some a) :
    fits b a = true ∧
      ∃ l1 l2, asks = l1 ++ a :: l2 ∧ ∀ x ∈ l1, fits b x = false := by
  induction asks with
  | nil => simp [scanAsks] at h
  | cons y rest ih =>
    simp only [scanAsks] at h
    by_cases hf : fits b y = true
    · simp only [hf, if_true, Option.some.injEq] at h
      subst h
      exact ⟨hf, [], rest, rfl, by simp⟩
    · simp only [hf] at h
      obtain ⟨h1, l1, l2, h2, h3⟩ := ih h
      refine ⟨h1, y :: l1, l2, by simp [h2], ?_⟩
      intro x hx
      rcases List.mem_cons.mp hx with hxy | hxl
      · rw [hxy]; simpa using hf
      · exact h3 x hxl

theorem scanBids_none (asks : List Ask) (bids : List Bid) :
    scanBids asks bids = none ↔ ∀ b ∈ bids, ∀ a ∈ asks, fits b a = false := by
  induction bids with
  | nil => simp [scanBids]
  | cons b rest ih =>
    simp only [scanBids, List.mem_cons, forall_eq_or_imp]
    cases hs : scanAsks b asks with
    | none =>
      simp only [ih]
      exact ⟨fun h => ⟨(scanAsks_none b asks).mp hs, h⟩, fun h => h.2⟩
    | some a =>
      simp only [reduceCtorEq, false_iff, not_and]
      intro hall
      have := (scanAsks_none b asks).mpr hall
      rw [hs] at this
      cases this

theorem scanBids_some (asks : List Ask) (bids : List Bid) (a : Ask) (b : Bid)
    (h : scanBids asks bids = some (a, b)) :
    scanAsks b asks = some a ∧
      ∃ l1 l2, bids = l1 ++ b :: l2 ∧ ∀ x ∈ l1, ∀ y ∈ asks, fits x y = false := by
  induction bids with
  | nil => simp [scanBids] at h
  | cons c rest ih =>
    simp only [scanBids] at h
    cases hs : scanAsks c asks with
    | none =>
      rw [hs] at h
      obtain ⟨h1, l1, l2, h2, h3⟩ := ih h
      refine ⟨h1, c :: l1, l2, by simp [h2], ?_⟩
      intro x hx
      rcases List.mem_cons.mp hx with hxc | hxl
      · rw [hxc]; exact (scanAsks_none c asks).mp hs
      · exact h3 x hxl
    | some a0 =>
      rw [hs] at h
      simp only [Option.some.injEq, Prod.mk.injEq] at h
      obtain ⟨ha, hb⟩ := h
      subst ha; subst hb
      exact ⟨hs, [], rest, rfl, by simp⟩

/-- The two ways in which `getBestDealPair` ends, for any `sort.Slice` that meets its
contract. -/
theorem getBestDealPair_cases
    (sortSlice : {α : Type} → (α → α → Bool) → List α → List α)
    (hsort : SortSliceContract (@sortSlice))
    (asks : List Ask) (bids : List Bid) (wallet : String) :
    ((getBestDealPair (@sortSlice) asks bids wallet).err = none ∧
      (getBestDealPair (@sortSlice) asks bids wallet).bid ∈ bids ∧
      (getBestDealPair (@sortSlice) asks bids wallet).bid.Owner = wallet ∧
      (getBestDealPair (@sortSlice) asks bids wallet).ask ∈ asks ∧
      fits (getBestDealPair (@sortSlice) asks bids wallet).bid
        (getBestDealPair (@sortSlice) asks bids wallet).ask = true ∧
      (∀ b ∈ bids, b.Owner = wallet → (∃ a ∈ asks, fits b a = true) →
        (getBestDealPair (@sortSlice) asks bids wallet).bid.ID ≤ b.ID) ∧
      (∀ a ∈ asks, fits (getBestDealPair (@sortSlice) asks bids wallet).bid a = true →
        (getBestDealPair (@sortSlice) asks bids wallet).ask.Price ≤ a.Price)) ∨
    ((getBestDealPair (@sortSlice) asks bids wallet).err = some (noMatchError wallet) ∧
      (getBestDealPair (@sortSlice) asks bids wallet).ask = Ask.zero ∧
      (getBestDealPair (@sortSlice) asks bids wallet).bid = Bid.zero ∧
      ∀ b ∈ bids, b.Owner = wallet → ∀ a ∈ asks, fits b a = false) := by
  obtain ⟨hbp, hbs⟩ := hsort Bid _ strictWeak_bidLess bids
  obtain ⟨hap, has⟩ := hsort Ask _ strictWeak_askLess asks
  have hmemW : ∀ b, b ∈ (sortSlice (fun (x y : Bid) => decide (x.ID < y.ID)) bids).filter
      (fun b => b.Owner == wallet) ↔ b ∈ bids ∧ b.Owner = wallet := by
    intro b
    simp [List.mem_filter, hbp.mem_iff]
  have hWs := hbs.filter (fun b => b.Owner == wallet)
  unfold getBestDealPair
  simp only []
  by_cases hlen : ((sortSlice (fun (x y : Bid) => decide (x.ID < y.ID)) bids).filter
      (fun b => b.Owner == wallet)).length ≠ 0
  · rw [if_pos hlen]
    cases hscan : scanBids (sortSlice (fun (x y : Ask) => decide (x.Price < y.Price)) asks)
        ((sortSlice (fun (x y : Bid) => decide (x.ID < y.ID)) bids).filter
          (fun b => b.Owner == wallet)) with
    | none =>
      right
      refine ⟨rfl, rfl, rfl, ?_⟩
      intro b hb hbo a ha
      exact (scanBids_none _ _).mp hscan b ((hmemW b).mpr ⟨hb, hbo⟩) a (hap.mem_iff.mpr ha)
    | some ab =>
      obtain ⟨a, b⟩ := ab
      left
      obtain ⟨hsa, l1, l2, hw, hl1⟩ := scanBids_some _ _ a b hscan
      obtain ⟨hfit, m1, m2, hm, hm1⟩ := scanAsks_some _ _ a hsa
      have hbW : b ∈ (sortSlice (fun (x y : Bid) => decide (x.ID < y.ID)) bids).filter
          (fun b => b.Owner == wallet) := by rw [hw]; simp
      have haS : a ∈ sortSlice (fun (x y : Ask) => decide (x.Price < y.Price)) asks := by
        rw [hm]; simp
      refine ⟨rfl, ((hmemW b).mp hbW).1, ((hmemW b).mp hbW).2, hap.mem_iff.mp haS, hfit, ?_, ?_⟩
      · intro b' hb' hbo' hex
        obtain ⟨a', ha', hf'⟩ := hex
        have hb'W := (hmemW b').mpr ⟨hb', hbo'⟩
        rw [hw] at hb'W hWs
        rcases List.mem_append.mp hb'W with h1 | h2
        · have := hl1 b' h1 a' (hap.mem_iff.mpr ha')
          rw [hf'] at this; cases this
        · rcases List.mem_cons.mp h2 with h3 | h3
          · rw [h3]
          · have hp := (List.pairwise_cons.mp (List.pairwise_append.mp hWs).2.1).1 b' h3
            simp only [decide_eq_false_iff_not, not_lt] at hp
            exact hp
      · intro a' ha' hf'
        have ha'S := hap.mem_iff.mpr ha'
        rw [hm] at ha'S has
        rcases List.mem_append.mp ha'S with h1 | h2
        · have := hm1 a' h1
          rw [hf'] at this; cases this
        · rcases List.mem_cons.mp h2 with h3 | h3
          · rw [h3]
          · have hp := (List.pairwise_cons.mp (List.pairwise_append.mp has).2.1).1 a' h3
            simp only [decide_eq_false_iff_not, not_lt] at hp
            exact hp
  · rw [if_neg hlen]
    right
    refine ⟨rfl, rfl, rfl, ?_⟩
    intro b hb hbo
    have hnil : (sortSlice (fun (x y : Bid) => decide (x.ID < y.ID)) bids).filter
        (fun b => b.Owner == wallet) = [] := by
      simpa using hlen
    have := (hmemW b).mpr ⟨hb, hbo⟩
    rw [hnil] at this
    cases this

/-- The line "Could not find any bids for wallet" is logged exactly when no input bid is
owned by the wallet. -/
theorem getBestDealPair_log
    (sortSlice : {α : Type} → (α → α → Bool) → List α → List α)
    (hsort : SortSliceContract (@sortSlice))
    (asks : List Ask) (bids : List Bid) (wallet : String) :
    LogLine.noBidsForWallet wallet ∈ (getBestDealPair (@sortSlice) asks bids wallet).log ↔
      ∀ b ∈ bids, b.Owner ≠ wallet := by
  obtain ⟨hbp, _⟩ := hsort Bid _ strictWeak_bidLess bids
  have hmemW : ∀ b, b ∈ (sortSlice (fun (x y : Bid) => decide (x.ID < y.ID)) bids).filter
      (fun b => b.Owner == wallet) ↔ b ∈ bids ∧ b.Owner = wallet := by
    intro b
    simp [List.mem_filter, hbp.mem_iff]
  unfold getBestDealPair
  simp only []
  by_cases hlen : ((sortSlice (fun (x y : Bid) => decide (x.ID < y.ID)) bids).filter
      (fun b => b.Owner == wallet)).length ≠ 0
  · rw [if_pos hlen]
    have hne : (sortSlice (fun (x y : Bid) => decide (x.ID < y.ID)) bids).filter
        (fun b => b.Owner == wallet) ≠ [] := by
      intro h0; rw [h0] at hlen; simp at hlen
    obtain ⟨b0, hb0⟩ := List.exists_mem_of_ne_nil _ hne
    have hb0' := (hmemW b0).mp hb0
    have hfalse : ¬ ∀ b ∈ bids, b.Owner ≠ wallet := fun hall => hall b0 hb0'.1 hb0'.2
    constructor
    · intro hmem
      exfalso
      cases hscan : scanBids (sortSlice (fun (x y : Ask) => decide (x.Price < y.Price)) asks)
          ((sortSlice (fun (x y : Bid) => decide (x.ID < y.ID)) bids).filter
            (fun b => b.Owner == wallet)) with
      | none => rw [hscan] at hmem; simp at hmem
      | some ab => rw [hscan] at hmem; simp at hmem
    · intro hall
      exact absurd hall hfalse
  · rw [if_neg hlen]
    have hnil : (sortSlice (fun (x y : Bid) => decide (x.ID < y.ID)) bids).filter
        (fun b => b.Owner == wallet) = [] := by
      simpa using hlen
    constructor
    · intro _ b hb hbo
      have := (hmemW b).mpr ⟨hb, hbo⟩
      rw [hnil] at this
      cases this
    · intro _
      simp

/-- Two rearrangements of one another that are both sorted on a key, and whose keys are
pairwise distinct, are the same list. -/
theorem sorted_eq_of_perm_of_distinct {α κ : Type} [LinearOrder κ] (key : α → κ)
    (l1 l2 : List α) (hp : l1.Perm l2)
    (h1 : l1.Pairwise (fun x y => decide (key y < key x) = false))
    (h2 : l2.Pairwise (fun x y => decide (key y < key x) = false))
    (hd : l1.Pairwise (fun x y => key x ≠ key y)) : l1 = l2 := by
  have hd2 : l2.Pairwise (fun x y => key x ≠ key y) :=
    (hp.pairwise_iff (fun {x y} (h : key x ≠ key y) => Ne.symm h)).mp hd
  have hstrict : ∀ x y : α, decide (key y < key x) = false ∧ key x ≠ key y → key x < key y := by
    intro x y h
    have hle : key x ≤ key y := by simpa using h.1
    exact lt_of_le_of_ne hle h.2
  have s1 : l1.Pairwise (fun x y => key x < key y) := (h1.and hd).imp (fun {x y} h => hstrict x y h)
  have s2 : l2.Pairwise (fun x y => key x < key y) := (h2.and hd2).imp (fun {x y} h => hstrict x y h)
  haveI : IsAntisymm α (fun x y => key x < key y) :=
    ⟨fun a b hab hba => absurd (lt_trans hab hba) (lt_irrefl _)⟩
  exact List.eq_of_perm_of_sorted hp s1 s2

/-! ## The deal matcher: results -/

/-- C1: whenever `getBestDealPair` succeeds, the returned bid is one of the input bids and
is owned by the wallet, the returned ask is one of the input asks, and the bid fits the ask:
`bid.Size ≤ ask.Size` and `bid.Price ≥ ask.Price`. -/
theorem getBestDealPair_sound
    (sortSlice : {α : Type} → (α → α → Bool) → List α → List α)
    (hsort : SortSliceContract (@sortSlice))
    (asks : List Ask) (bids : List Bid) (wallet : String)
    (hok : (getBestDealPair (@sortSlice) asks bids wallet).err = none) :
    (getBestDealPair (@sortSlice) asks bids wallet).bid ∈ bids ∧
    (getBestDealPair (@sortSlice) asks bids wallet).bid.Owner = wallet ∧
    (getBestDealPair (@sortSlice) asks bids wallet).ask ∈ asks ∧
    (getBestDealPair (@sortSlice) asks bids wallet).bid.Size
      ≤ (getBestDealPair (@sortSlice) asks bids wallet).ask.Size ∧
    (getBestDealPair (@sortSlice) asks bids wallet).bid.Price
      ≥ (getBestDealPair (@sortSlice) asks bids wallet).ask.Price := by
  rcases getBestDealPair_cases (@sortSlice) hsort asks bids wallet with h | h
  · obtain ⟨_, h1, h2, h3, h4, _, _⟩ := h
    exact ⟨h1, h2, h3, ((fits_iff _ _).mp h4).1, ((fits_iff _ _).mp h4).2⟩
  · rw [h.1] at hok
    cases hok

theorem getBestDealPair_sound_witness :
    (getBestDealPair (@insertionSort_func) [askC, askA] [bidC, bidB, bidA] "wallet1").bid
      ∈ [bidC, bidB, bidA] ∧
    (getBestDealPair (@insertionSort_func) [askC, askA] [bidC, bidB, bidA] "wallet1").bid.Owner
      = "wallet1" ∧
    (getBestDealPair (@insertionSort_func) [askC, askA] [bidC, bidB, bidA] "wallet1").ask
      ∈ [askC, askA] ∧
    (getBestDealPair (@insertionSort_func) [askC, askA] [bidC, bidB, bidA] "wallet1").bid.Size
      ≤ (getBestDealPair (@insertionSort_func) [askC, askA] [bidC, bidB, bidA]
          "wallet1").ask.Size ∧
    (getBestDealPair (@insertionSort_func) [askC, askA] [bidC, bidB, bidA] "wallet1").bid.Price
      ≥ (getBestDealPair (@insertionSort_func) [askC, askA] [bidC, bidB, bidA]
          "wallet1").ask.Price :=
  getBestDealPair_sound (@insertionSort_func) insertionSort_func_contract
    [askC, askA] [bidC, bidB, bidA] "wallet1" (by decide)

/-- C2: whenever `getBestDealPair` succeeds with `(ask, bid)`, the bid is a bid of the wallet
that fits some ask and has the smallest ID among the wallet's bids that fit at least one ask,
and the ask is an ask that the bid fits and has the minimum price among all input asks that
the bid fits. -/
theorem getBestDealPair_fifo_cheapest
    (sortSlice : {α : Type} → (α → α → Bool) → List α → List α)
    (hsort : SortSliceContract (@sortSlice))
    (asks : List Ask) (bids : List Bid) (wallet : String)
    (hok : (getBestDealPair (@sortSlice) asks bids wallet).err = none) :
    ((getBestDealPair (@sortSlice) asks bids wallet).bid ∈ bids ∧
      (getBestDealPair (@sortSlice) asks bids wallet).bid.Owner = wallet ∧
      ∃ a ∈ asks, (getBestDealPair (@sortSlice) asks bids wallet).bid.Size ≤ a.Size ∧
        (getBestDealPair (@sortSlice) asks bids wallet).bid.Price ≥ a.Price) ∧
    (∀ b ∈ bids, b.Owner = wallet →
      (∃ a ∈ asks, b.Size ≤ a.Size ∧ b.Price ≥ a.Price) →
      (getBestDealPair (@sortSlice) asks bids wallet).bid.ID ≤ b.ID) ∧
    ((getBestDealPair (@sortSlice) asks bids wallet).ask ∈ asks ∧
      (getBestDealPair (@sortSlice) asks bids wallet).bid.Size
        ≤ (getBestDealPair (@sortSlice) asks bids wallet).ask.Size ∧
      (getBestDealPair (@sortSlice) asks bids wallet).bid.Price
        ≥ (getBestDealPair (@sortSlice) asks bids wallet).ask.Price) ∧
    (∀ a ∈ asks,
      (getBestDealPair (@sortSlice) asks bids wallet).bid.Size ≤ a.Size ∧
        (getBestDealPair (@sortSlice) asks bids wallet).bid.Price ≥ a.Price →
      (getBestDealPair (@sortSlice) asks bids wallet).ask.Price ≤ a.Price) := by
  rcases getBestDealPair_cases (@sortSlice) hsort asks bids wallet with h | h
  · obtain ⟨_, h1, h2, h3, h4, h5, h6⟩ := h
    have h4' := (fits_iff _ _).mp h4
    refine ⟨⟨h1, h2, _, h3, h4'⟩, ?_, ⟨h3, h4'⟩, ?_⟩
    · intro b hb hbo hex
      obtain ⟨a, ha, hfa⟩ := hex
      exact h5 b hb hbo ⟨a, ha, (fits_iff _ _).mpr hfa⟩
    · intro a ha hfa
      exact h6 a ha ((fits_iff _ _).mpr hfa)
  · rw [h.1] at hok
    cases hok

theorem getBestDealPair_fifo_cheapest_witness :
    ((getBestDealPair (@insertionSort_func) [askC, askB] [bidA, bidC, bidB] "wallet1").bid
        ∈ [bidA, bidC, bidB] ∧
      (getBestDealPair (@insertionSort_func) [askC, askB] [bidA, bidC, bidB]
        "wallet1").bid.Owner = "wallet1" ∧
      ∃ a ∈ [askC, askB],
        (getBestDealPair (@insertionSort_func) [askC, askB] [bidA, bidC, bidB]
          "wallet1").bid.Size ≤ a.Size ∧
        (getBestDealPair (@insertionSort_func) [askC, askB] [bidA, bidC, bidB]
          "wallet1").bid.Price ≥ a.Price) ∧
    (∀ b ∈ [bidA, bidC, bidB], b.Owner = "wallet1" →
      (∃ a ∈ [askC, askB], b.Size ≤ a.Size ∧ b.Price ≥ a.Price) →
      (getBestDealPair (@insertionSort_func) [askC, askB] [bidA, bidC, bidB]
        "wallet1").bid.ID ≤ b.ID) ∧
    ((getBestDealPair (@insertionSort_func) [askC, askB] [bidA, bidC, bidB] "wallet1").ask
        ∈ [askC, askB] ∧
      (getBestDealPair (@insertionSort_func) [askC, askB] [bidA, bidC, bidB]
        "wallet1").bid.Size
        ≤ (getBestDealPair (@insertionSort_func) [askC, askB] [bidA, bidC, bidB]
          "wallet1").ask.Size ∧
      (getBestDealPair (@insertionSort_func) [askC, askB] [bidA, bidC, bidB]
        "wallet1").bid.Price
        ≥ (getBestDealPair (@insertionSort_func) [askC, askB] [bidA, bidC, bidB]
          "wallet1").ask.Price) ∧
    (∀ a ∈ [askC, askB],
      (getBestDealPair (@insertionSort_func) [askC, askB] [bidA, bidC, bidB]
          "wallet1").bid.Size ≤ a.Size ∧
        (getBestDealPair (@insertionSort_func) [askC, askB] [bidA, bidC, bidB]
          "wallet1").bid.Price ≥ a.Price →
      (getBestDealPair (@insertionSort_func) [askC, askB] [bidA, bidC, bidB]
        "wallet1").ask.Price ≤ a.Price) :=
  getBestDealPair_fifo_cheapest (@insertionSort_func) insertionSort_func_contract
    [askC, askB] [bidA, bidC, bidB] "wallet1" (by decide)

/-- C3: `getBestDealPair` fails if and only if there is no pair of a bid owned by the wallet
and an ask with `bid.Size ≤ ask.Size` and `bid.Price ≥ ask.Price`; when it fails it returns
the error of line 413 with the zero Ask and the zero Bid, and it succeeds whenever such a
pair exists. -/
theorem getBestDealPair_fails_iff
    (sortSlice : {α : Type} → (α → α → Bool) → List α → List α)
    (hsort : SortSliceContract (@sortSlice))
    (asks : List Ask) (bids : List Bid) (wallet : String) :
    ((getBestDealPair (@sortSlice) asks bids wallet).err ≠ none ↔
      ¬ ∃ b ∈ bids, b.Owner = wallet ∧ ∃ a ∈ asks, b.Size ≤ a.Size ∧ b.Price ≥ a.Price) ∧
    ((getBestDealPair (@sortSlice) asks bids wallet).err ≠ none →
      (getBestDealPair (@sortSlice) asks bids wallet).err = some (noMatchError wallet) ∧
      (getBestDealPair (@sortSlice) asks bids wallet).ask = Ask.zero ∧
      (getBestDealPair (@sortSlice) asks bids wallet).bid = Bid.zero) ∧
    ((∃ b ∈ bids, b.Owner = wallet ∧ ∃ a ∈ asks, b.Size ≤ a.Size ∧ b.Price ≥ a.Price) →
      (getBestDealPair (@sortSlice) asks bids wallet).err = none) := by
  rcases getBestDealPair_cases (@sortSlice) hsort asks bids wallet with h | h
  · obtain ⟨h0, h1, h2, h3, h4, _, _⟩ := h
    refine ⟨⟨fun hne => absurd h0 hne, fun hno => ?_⟩, fun hne => absurd h0 hne, fun _ => h0⟩
    exact absurd ⟨_, h1, h2, _, h3, (fits_iff _ _).mp h4⟩ hno
  · obtain ⟨h0, h1, h2, h3⟩ := h
    have hno : ¬ ∃ b ∈ bids, b.Owner = wallet ∧
        ∃ a ∈ asks, b.Size ≤ a.Size ∧ b.Price ≥ a.Price := by
      rintro ⟨b, hb, hbo, a, ha, hfa⟩
      have := h3 b hb hbo a ha
      rw [(fits_iff _ _).mpr hfa] at this
      cases this
    refine ⟨⟨fun _ => hno, fun _ => by rw [h0]; simp⟩, fun _ => ⟨h0, h1, h2⟩, fun hex => ?_⟩
    exact absurd hex hno

theorem getBestDealPair_fails_iff_witness :
    ((getBestDealPair (@insertionSort_func) [askC, askA] [bidC, bidB] "wallet1").err ≠ none ↔
      ¬ ∃ b ∈ [bidC, bidB], b.Owner = "wallet1" ∧
          ∃ a ∈ [askC, askA], b.Size ≤ a.Size ∧ b.Price ≥ a.Price) ∧
    ((getBestDealPair (@insertionSort_func) [askC, askA] [bidC, bidB] "wallet1").err ≠ none →
      (getBestDealPair (@insertionSort_func) [askC, askA] [bidC, bidB] "wallet1").err
        = some (noMatchError "wallet1") ∧
      (getBestDealPair (@insertionSort_func) [askC, askA] [bidC, bidB] "wallet1").ask
        = Ask.zero ∧
      (getBestDealPair (@insertionSort_func) [askC, askA] [bidC, bidB] "wallet1").bid
        = Bid.zero) ∧
    ((∃ b ∈ [bidC, bidB], b.Owner = "wallet1" ∧
          ∃ a ∈ [askC, askA], b.Size ≤ a.Size ∧ b.Price ≥ a.Price) →
      (getBestDealPair (@insertionSort_func) [askC, askA] [bidC, bidB] "wallet1").err = none) :=
  getBestDealPair_fails_iff (@insertionSort_func) insertionSort_func_contract
    [askC, askA] [bidC, bidB] "wallet1"

/-- C4 (as stated, refuted): with Go's insertion sort, which is what `sort.Slice` runs on
slices this short, two asks of equal price are returned in the order in which they were
passed in, and so are two bids of equal ID: rearranging the input changes the returned ask,
respectively the returned bid. -/
theorem getBestDealPair_order_dependent :
    (List.Perm [askA, askB] [askB, askA] ∧
      (getBestDealPair (@insertionSort_func) [askA, askB] [bidA] "wallet1").err = none ∧
      (getBestDealPair (@insertionSort_func) [askB, askA] [bidA] "wallet1").err = none ∧
      (getBestDealPair (@insertionSort_func) [askA, askB] [bidA] "wallet1").ask
        ≠ (getBestDealPair (@insertionSort_func) [askB, askA] [bidA] "wallet1").ask) ∧
    (List.Perm [bidA, bidD] [bidD, bidA] ∧
      (getBestDealPair (@insertionSort_func) [askA] [bidA, bidD] "wallet1").err = none ∧
      (getBestDealPair (@insertionSort_func) [askA] [bidD, bidA] "wallet1").err = none ∧
      (getBestDealPair (@insertionSort_func) [askA] [bidA, bidD] "wallet1").bid
        ≠ (getBestDealPair (@insertionSort_func) [askA] [bidD, bidA] "wallet1").bid) :=
  ⟨⟨List.Perm.swap _ _ _, by decide, by decide, by decide⟩,
    ⟨List.Perm.swap _ _ _, by decide, by decide, by decide⟩⟩

/-- C4 (amended): when the asks have pairwise distinct prices and the bids owned by the
wallet have pairwise distinct IDs, `getBestDealPair` yields the identical outcome (error,
ask, bid and log) on every two ask lists and every two bid lists that are rearrangements of
one another. -/
theorem getBestDealPair_perm_of_distinct
    (sortSlice : {α : Type} → (α → α → Bool) → List α → List α)
    (hsort : SortSliceContract (@sortSlice))
    (asks1 asks2 : List Ask) (bids1 bids2 : List Bid) (wallet : String)
    (hasks : asks1.Perm asks2) (hbids : bids1.Perm bids2)
    (hprices : asks1.Pairwise (fun x y => x.Price ≠ y.Price))
    (hids : (bids1.filter (fun b => b.Owner == wallet)).Pairwise (fun x y => x.ID ≠ y.ID)) :
    getBestDealPair (@sortSlice) asks1 bids1 wallet
      = getBestDealPair (@sortSlice) asks2 bids2 wallet := by
  obtain ⟨hb1p, hb1s⟩ := hsort Bid _ strictWeak_bidLess bids1
  obtain ⟨hb2p, hb2s⟩ := hsort Bid _ strictWeak_bidLess bids2
  obtain ⟨ha1p, ha1s⟩ := hsort Ask _ strictWeak_askLess asks1
  obtain ⟨ha2p, ha2s⟩ := hsort Ask _ strictWeak_askLess asks2
  have hA : sortSlice (fun (x y : Ask) => decide (x.Price < y.Price)) asks1
      = sortSlice (fun (x y : Ask) => decide (x.Price < y.Price)) asks2 := by
    apply sorted_eq_of_perm_of_distinct (fun a : Ask => a.Price) _ _
      (ha1p.trans (hasks.trans ha2p.symm)) ha1s ha2s
    exact (ha1p.pairwise_iff (fun {x y} (h : x.Price ≠ y.Price) => Ne.symm h)).mpr hprices
  have hW : (sortSlice (fun (x y : Bid) => decide (x.ID < y.ID)) bids1).filter
        (fun b => b.Owner == wallet)
      = (sortSlice (fun (x y : Bid) => decide (x.ID < y.ID)) bids2).filter
        (fun b => b.Owner == wallet) := by
    apply sorted_eq_of_perm_of_distinct (fun b : Bid => b.ID) _ _
      ((hb1p.trans (hbids.trans hb2p.symm)).filter _) (hb1s.filter _) (hb2s.filter _)
    exact ((hb1p.filter (fun b => b.Owner == wallet)).pairwise_iff
      (fun {x y} (h : x.ID ≠ y.ID) => Ne.symm h)).mpr hids
  unfold getBestDealPair
  simp only []
  rw [hA, hW]

theorem getBestDealPair_perm_of_distinct_witness :
    getBestDealPair (@insertionSort_func) [askC, askA] [bidA, bidC, bidB] "wallet1"
      = getBestDealPair (@insertionSort_func) [askA, askC] [bidB, bidC, bidA] "wallet1" :=
  getBestDealPair_perm_of_distinct (@insertionSort_func) insertionSort_func_contract
    [askC, askA] [askA, askC] [bidA, bidC, bidB] [bidB, bidC, bidA] "wallet1"
    (List.Perm.swap _ _ _)
    ((List.Perm.swap _ _ _).trans ((List.Perm.cons _ (List.Perm.swap _ _ _)).trans
      (List.Perm.swap _ _ _)))
    (by decide) (by decide)

/-- C5 (as stated, refuted): a call in which no bid is owned by the wallet and a call in
which the wallet owns a bid that fits no ask return the same error, the same ask and the
same bid. -/
theorem getBestDealPair_same_failure :
    (∀ b ∈ ([bidC] : List Bid), b.Owner ≠ "wallet1") ∧
    (∃ b ∈ [bidC, bidB], b.Owner = "wallet1") ∧
    (getBestDealPair (@insertionSort_func) [askA] [bidC] "wallet1").err ≠ none ∧
    (getBestDealPair (@insertionSort_func) [askA] [bidC] "wallet1").err
      = (getBestDealPair (@insertionSort_func) [askA] [bidC, bidB] "wallet1").err ∧
    (getBestDealPair (@insertionSort_func) [askA] [bidC] "wallet1").ask
      = (getBestDealPair (@insertionSort_func) [askA] [bidC, bidB] "wallet1").ask ∧
    (getBestDealPair (@insertionSort_func) [askA] [bidC] "wallet1").bid
      = (getBestDealPair (@insertionSort_func) [askA] [bidC, bidB] "wallet1").bid := by
  decide

/-- C5 (amended): when no bid is owned by the wallet, `getBestDealPair` fails with the zero
Ask, the zero Bid and the error "Could not find matching ask / bid for wallet ...", which is
the very error it returns when the wallet owns a bid but no wallet bid fits any ask; the two
cases differ only in the log, where the line "Could not find any bids for wallet" is written
in the first case and not in the second. -/
theorem getBestDealPair_no_wallet_bids
    (sortSlice : {α : Type} → (α → α → Bool) → List α → List α)
    (hsort : SortSliceContract (@sortSlice))
    (asks asks' : List Ask) (bids bids' : List Bid) (wallet : String)
    (hnone : ∀ b ∈ bids, b.Owner ≠ wallet)
    (hsome : ∃ b ∈ bids', b.Owner = wallet)
    (hnofit : ∀ b ∈ bids', b.Owner = wallet →
      ∀ a ∈ asks', ¬ (b.Size ≤ a.Size ∧ b.Price ≥ a.Price)) :
    ((getBestDealPair (@sortSlice) asks bids wallet).err = some (noMatchError wallet) ∧
      (getBestDealPair (@sortSlice) asks bids wallet).ask = Ask.zero ∧
      (getBestDealPair (@sortSlice) asks bids wallet).bid = Bid.zero) ∧
    ((getBestDealPair (@sortSlice) asks' bids' wallet).err = some (noMatchError wallet) ∧
      (getBestDealPair (@sortSlice) asks' bids' wallet).ask = Ask.zero ∧
      (getBestDealPair (@sortSlice) asks' bids' wallet).bid = Bid.zero) ∧
    LogLine.noBidsForWallet wallet ∈ (getBestDealPair (@sortSlice) asks bids wallet).log ∧
    LogLine.noBidsForWallet wallet ∉ (getBestDealPair (@sortSlice) asks' bids' wallet).log := by
  refine ⟨?_, ?_, ?_, ?_⟩
  · rcases getBestDealPair_cases (@sortSlice) hsort asks bids wallet with h | h
    · exact absurd h.2.2.1 (hnone _ h.2.1)
    · exact ⟨h.1, h.2.1, h.2.2.1⟩
  · rcases getBestDealPair_cases (@sortSlice) hsort asks' bids' wallet with h | h
    · obtain ⟨_, h1, h2, h3, h4, _, _⟩ := h
      exact absurd ((fits_iff _ _).mp h4) (hnofit _ h1 h2 _ h3)
    · exact ⟨h.1, h.2.1, h.2.2.1⟩
  · exact (getBestDealPair_log (@sortSlice) hsort asks bids wallet).mpr hnone
  · intro hmem
    obtain ⟨b, hb, hbo⟩ := hsome
    exact (getBestDealPair_log (@sortSlice) hsort asks' bids' wallet).mp hmem b hb hbo

theorem getBestDealPair_no_wallet_bids_witness :
    ((getBestDealPair (@insertionSort_func) [askC] [bidC] "wallet1").err
        = some (noMatchError "wallet1") ∧
      (getBestDealPair (@insertionSort_func) [askC] [bidC] "wallet1").ask = Ask.zero ∧
      (getBestDealPair (@insertionSort_func) [askC] [bidC] "wallet1").bid = Bid.zero) ∧
    ((getBestDealPair (@insertionSort_func) [askC, askB] [bidB, bidC] "wallet1").err
        = some (noMatchError "wallet1") ∧
      (getBestDealPair (@insertionSort_func) [askC, askB] [bidB, bidC] "wallet1").ask
        = Ask.zero ∧
      (getBestDealPair (@insertionSort_func) [askC, askB] [bidB, bidC] "wallet1").bid
        = Bid.zero) ∧
    LogLine.noBidsForWallet "wallet1"
      ∈ (getBestDealPair (@insertionSort_func) [askC] [bidC] "wallet1").log ∧
    LogLine.noBidsForWallet "wallet1"
      ∉ (getBestDealPair (@insertionSort_func) [askC, askB] [bidB, bidC] "wallet1").log :=
  getBestDealPair_no_wallet_bids (@insertionSort_func) insertionSort_func_contract
    [askC] [askC, askB] [bidC] [bidB, bidC] "wallet1" (by decide) (by decide) (by decide)

/-! ## Parsing: results -/

theorem extractUnusedBidsLoop_eq (unmarshal : String → Option Bid) (lines : List String)
    (decoded acc : List Bid) (hdec : lines.map unmarshal = decoded.map some) :
    extractUnusedBidsLoop unmarshal lines acc
      = some (acc ++ decoded.filter (fun b => !b.Used)) := by
  induction lines generalizing decoded acc with
  | nil =>
    cases decoded with
    | nil => simp [extractUnusedBidsLoop]
    | cons d ds => simp at hdec
  | cons l ls ih =>
    cases decoded with
    | nil => simp at hdec
    | cons d ds =>
      simp only [List.map_cons, List.cons.injEq] at hdec
      obtain ⟨hl, hls⟩ := hdec
      simp only [extractUnusedBidsLoop, hl]
      by_cases hu : d.Used = true
      · simp [hu, ih ds acc hls]
      · simp [hu, ih ds (acc ++ [d]) hls]

/-- C6: for a response whose newline-trimmed text has two or more lines, each of which
decodes to a bid record, `extractUnusedBids` returns without error exactly the decoded bids
whose `Used` flag is false, in response order: no returned bid is used and every unused bid
of the response is returned. -/
theorem extractUnusedBids_unused (unmarshal : String → Option Bid) (input : String)
    (decoded : List Bid)
    (hlen : 2 ≤ (responseLines input).length)
    (hdec : (responseLines input).map unmarshal = decoded.map some) :
    extractUnusedBids unmarshal input
      = GoResult.returned (decoded.filter (fun b => !b.Used)) none ∧
    (∀ b ∈ decoded.filter (fun b => !b.Used), b.Used = false) ∧
    (∀ b ∈ decoded, b.Used = false → b ∈ decoded.filter (fun b => !b.Used)) := by
  refine ⟨?_, ?_, ?_⟩
  · unfold extractUnusedBids
    simp only []
    rw [if_neg (by omega), extractUnusedBidsLoop_eq unmarshal _ decoded [] hdec]
    simp
  · intro b hb
    simpa using (List.mem_filter.mp hb).2
  · intro b hb hu
    exact List.mem_filter.mpr ⟨hb, by simp [hu]⟩

theorem extractUnusedBids_unused_witness :
    extractUnusedBids sampleUnmarshal "\nA\nU\nC\n\n"
      = GoResult.returned ([bidA, bidU, bidC].filter (fun b => !b.Used)) none ∧
    (∀ b ∈ [bidA, bidU, bidC].filter (fun b => !b.Used), b.Used = false) ∧
    (∀ b ∈ [bidA, bidU, bidC], b.Used = false →
      b ∈ [bidA, bidU, bidC].filter (fun b => !b.Used)) :=
  extractUnusedBids_unused sampleUnmarshal "\nA\nU\nC\n\n" [bidA, bidU, bidC]
    (by decide) (by decide)

/-! ## Floating point: lemmas -/

theorem log_two_bounds (x : ℚ) (hx : 0 < x) :
    (2:ℚ) ^ (Int.log 2 x) ≤ x ∧ x < (2:ℚ) ^ (Int.log 2 x + 1) := by
  constructor
  · have := Int.zpow_log_le_self (b := 2) (r := x) (by norm_num) hx
    exact_mod_cast this
  · have := Int.lt_zpow_succ_log_self (b := 2) (by norm_num) x
    exact_mod_cast this

theorem roundPos_exact (x : ℚ) (k : ℕ) (j : ℤ) (hk0 : 0 < k) (hk : k < 2 ^ 53)
    (hx : x = k * (2:ℚ) ^ j) : roundPos x = x := by
  have h2j : (0:ℚ) < (2:ℚ) ^ j := by positivity
  have hkq : (1:ℚ) ≤ (k:ℚ) := by exact_mod_cast hk0
  have hkq2 : (k:ℚ) < (2:ℚ) ^ (53:ℤ) := by
    have : (k:ℚ) < ((2 ^ 53 : ℕ) : ℚ) := by exact_mod_cast hk
    rw [show ((2:ℚ) ^ (53:ℤ)) = ((2 ^ 53 : ℕ) : ℚ) by norm_num]
    exact this
  have hxpos : 0 < x := by rw [hx]; positivity
  obtain ⟨h1, h2⟩ := log_two_bounds x hxpos
  unfold roundPos
  simp only []
  generalize Int.log 2 x = e at h1 h2 ⊢
  have hje : j ≤ e := by
    have : (2:ℚ) ^ j < (2:ℚ) ^ (e + 1) := by
      refine lt_of_le_of_lt ?_ h2
      rw [hx]
      exact le_mul_of_one_le_left h2j.le hkq
    have := (zpow_lt_zpow_iff_right₀ (by norm_num : (1:ℚ) < 2)).mp this
    omega
  have hej : e < 53 + j := by
    have : (2:ℚ) ^ e < (2:ℚ) ^ (53 + j) := by
      refine lt_of_le_of_lt h1 ?_
      rw [hx, zpow_add₀ (by norm_num : (2:ℚ) ≠ 0)]
      exact mul_lt_mul_of_pos_right hkq2 h2j
    exact (zpow_lt_zpow_iff_right₀ (by norm_num : (1:ℚ) < 2)).mp this
  obtain ⟨d, hd⟩ : ∃ d : ℕ, j = e - 52 + d := ⟨(j - (e - 52)).toNat, by omega⟩
  have hu : (0:ℚ) < (2:ℚ) ^ (e - 52) := by positivity
  have hxe : x = ((k * 2 ^ d : ℕ) : ℚ) * (2:ℚ) ^ (e - 52) := by
    rw [hx, hd, zpow_add₀ (by norm_num : (2:ℚ) ≠ 0), zpow_natCast]
    push_cast
    ring
  have hq : x / (2:ℚ) ^ (e - 52) = ((k * 2 ^ d : ℕ) : ℚ) := by
    rw [div_eq_iff hu.ne']
    exact hxe
  rw [hq, Int.floor_natCast]
  have hr : (((k * 2 ^ d : ℕ) : ℚ) - (((k * 2 ^ d : ℕ) : ℤ) : ℚ)) = 0 := by push_cast; ring
  rw [hr, if_pos (by norm_num)]
  rw [hxe]
  push_cast
  ring

theorem roundPos_ge (x : ℚ) (hx : (2:ℚ) ^ (53:ℤ) ≤ x) : (2:ℚ) ^ (53:ℤ) ≤ roundPos x := by
  have hxpos : 0 < x := lt_of_lt_of_le (by positivity) hx
  obtain ⟨h1, h2⟩ := log_two_bounds x hxpos
  unfold roundPos
  simp only []
  generalize Int.log 2 x = e at h1 h2 ⊢
  have he : 53 ≤ e := by
    have : (2:ℚ) ^ (53:ℤ) < (2:ℚ) ^ (e + 1) := lt_of_le_of_lt hx h2
    have := (zpow_lt_zpow_iff_right₀ (by norm_num : (1:ℚ) < 2)).mp this
    omega
  have hu : (0:ℚ) < (2:ℚ) ^ (e - 52) := by positivity
  have hq : (2:ℚ) ^ (52:ℤ) ≤ x / (2:ℚ) ^ (e - 52) := by
    rw [le_div_iff₀ hu, ← zpow_add₀ (by norm_num : (2:ℚ) ≠ 0)]
    have : (52:ℤ) + (e - 52) = e := by ring
    rw [this]
    exact h1
  have hn : ((2 ^ 52 : ℕ) : ℤ) ≤ ⌊x / (2:ℚ) ^ (e - 52)⌋ := by
    rw [Int.le_floor]
    refine le_trans ?_ hq
    norm_num
  have hk : ((2 ^ 52 : ℕ) : ℤ) ≤ (if x / (2:ℚ) ^ (e - 52) - ⌊x / (2:ℚ) ^ (e - 52)⌋ < 1 / 2 then
        ⌊x / (2:ℚ) ^ (e - 52)⌋
      else if 1 / 2 < x / (2:ℚ) ^ (e - 52) - ⌊x / (2:ℚ) ^ (e - 52)⌋ then
        ⌊x / (2:ℚ) ^ (e - 52)⌋ + 1
      else if ⌊x / (2:ℚ) ^ (e - 52)⌋ % 2 = 0 then ⌊x / (2:ℚ) ^ (e - 52)⌋
      else ⌊x / (2:ℚ) ^ (e - 52)⌋ + 1) := by
    split_ifs <;> omega
  have hkq : (2:ℚ) ^ (52:ℤ) ≤ ((if x / (2:ℚ) ^ (e - 52) - ⌊x / (2:ℚ) ^ (e - 52)⌋ < 1 / 2 then
        ⌊x / (2:ℚ) ^ (e - 52)⌋
      else if 1 / 2 < x / (2:ℚ) ^ (e - 52) - ⌊x / (2:ℚ) ^ (e - 52)⌋ then
        ⌊x / (2:ℚ) ^ (e - 52)⌋ + 1
      else if ⌊x / (2:ℚ) ^ (e - 52)⌋ % 2 = 0 then ⌊x / (2:ℚ) ^ (e - 52)⌋
      else ⌊x / (2:ℚ) ^ (e - 52)⌋ + 1 : ℤ) : ℚ) := by
    have := (Int.cast_le (R := ℚ)).mpr hk
    refine le_trans ?_ this
    norm_num
  calc (2:ℚ) ^ (53:ℤ) = (2:ℚ) ^ (52:ℤ) * (2:ℚ) ^ (1:ℤ) := by norm_num
    _ ≤ (2:ℚ) ^ (52:ℤ) * (2:ℚ) ^ (e - 52) := by
        apply mul_le_mul_of_nonneg_left _ (by positivity)
        exact zpow_le_zpow_right₀ (by norm_num) (by omega)
    _ ≤ _ := mul_le_mul_of_nonneg_right hkq hu.le

theorem log_two_eq (x : ℚ) (e : ℤ) (h1 : (2:ℚ) ^ e ≤ x) (h2 : x < (2:ℚ) ^ (e + 1)) :
    Int.log 2 x = e := by
  have hx : 0 < x := lt_of_lt_of_le (by positivity) h1
  apply le_antisymm
  · have := (Int.lt_zpow_iff_log_lt (b := 2) (by norm_num) hx (x := e + 1)).mp
      (by exact_mod_cast h2)
    omega
  · exact (Int.zpow_le_iff_le_log (b := 2) (by norm_num) hx).mp (by exact_mod_cast h1)

theorem roundPos_eq_of (x : ℚ) (e n : ℤ) (h1 : (2:ℚ) ^ e ≤ x) (h2 : x < (2:ℚ) ^ (e + 1))
    (hn1 : (n:ℚ) ≤ x / (2:ℚ) ^ (e - 52)) (hn2 : x / (2:ℚ) ^ (e - 52) < n + 1) :
    roundPos x =
      ((if x / (2:ℚ) ^ (e - 52) - n < 1 / 2 then n
        else if 1 / 2 < x / (2:ℚ) ^ (e - 52) - n then n + 1
        else if n % 2 = 0 then n else n + 1 : ℤ) : ℚ) * (2:ℚ) ^ (e - 52) := by
  have hfl : ⌊x / (2:ℚ) ^ (e - 52)⌋ = n := Int.floor_eq_iff.mpr ⟨hn1, hn2⟩
  unfold roundPos
  simp only []
  rw [log_two_eq x e h1 h2, hfl]


theorem float64_0_001_eq : roundFloat64 (1 / 1000) = float64_0_001 := by
  unfold roundFloat64 float64_0_001
  rw [if_neg (by norm_num), if_pos (by norm_num),
    roundPos_eq_of (1 / 1000) (-10) 4611686018427387 (by norm_num) (by norm_num) (by norm_num)
      (by norm_num)]
  norm_num

theorem float64_0_999_eq : roundFloat64 (999 / 1000) = float64_0_999 := by
  unfold roundFloat64 float64_0_999
  rw [if_neg (by norm_num), if_pos (by norm_num),
    roundPos_eq_of (999 / 1000) (-1) 8998192055486251 (by norm_num) (by norm_num) (by norm_num)
      (by norm_num)]
  norm_num

/-- The conversion `float64(n)` is exact for `0 ≤ n < 2^53`. -/
theorem float64OfInt_exact (n : Int) (h0 : 0 ≤ n) (h : n < 2 ^ 53) : float64OfInt n = n := by
  unfold float64OfInt roundFloat64
  by_cases hz : n = 0
  · simp [hz]
  · have hpos : (0:ℚ) < (n:ℚ) := by
      have : 0 < n := lt_of_le_of_ne h0 (Ne.symm hz)
      exact_mod_cast this
    rw [if_neg hpos.ne', if_pos hpos]
    apply roundPos_exact (n:ℚ) n.toNat 0
    · omega
    · omega
    · have : ((n.toNat : ℤ) : ℚ) = (n : ℚ) := by rw [Int.toNat_of_nonneg h0]
      simp only [zpow_zero, mul_one]
      exact_mod_cast this.symm

/-- The conversion `float64(n)` of an `n ≥ 2^53` is at least `2^53`. -/
theorem float64OfInt_ge (n : Int) (h : 2 ^ 53 ≤ n) : (2:ℚ) ^ (53:ℤ) ≤ float64OfInt n := by
  have hq : (2:ℚ) ^ (53:ℤ) ≤ (n:ℚ) := by
    have : ((2 ^ 53 : ℤ) : ℚ) ≤ (n : ℚ) := by exact_mod_cast h
    refine le_trans ?_ this
    norm_num
  have hpos : (0:ℚ) < (n:ℚ) := lt_of_lt_of_le (by positivity) hq
  unfold float64OfInt roundFloat64
  rw [if_neg hpos.ne', if_pos hpos]
  exact roundPos_ge _ hq

/-- The product `float64(m) * 1.5` is exact for `0 ≤ m` with `3 * m < 2^53`. -/
theorem mulFloat64_exact (m : Int) (h0 : 0 ≤ m) (h : 3 * m < 2 ^ 53) :
    mulFloat64 (float64OfInt m) float64_1_5 = 3 * m / 2 := by
  rw [float64OfInt_exact m h0 (by omega)]
  unfold mulFloat64 roundFloat64 float64_1_5
  by_cases hz : m = 0
  · simp [hz]
  · have hpos : (0:ℚ) < (m:ℚ) := by
      have : 0 < m := lt_of_le_of_ne h0 (Ne.symm hz)
      exact_mod_cast this
    have hpos2 : (0:ℚ) < (m:ℚ) * (3 / 2) := by positivity
    rw [if_neg hpos2.ne', if_pos hpos2]
    rw [roundPos_exact ((m:ℚ) * (3 / 2)) (3 * m).toNat (-1) (by omega) (by omega)]
    · ring
    · have : (((3 * m).toNat : ℤ) : ℚ) = ((3 * m : ℤ) : ℚ) := by
        rw [Int.toNat_of_nonneg (by omega)]
      have h2 : (((3 * m).toNat : ℕ) : ℚ) = 3 * (m:ℚ) := by
        have h3 : (((3 * m).toNat : ℕ) : ℚ) = (((3 * m).toNat : ℤ) : ℚ) := by push_cast; rfl
        rw [h3, this]
        push_cast
        ring
      rw [h2]
      norm_num
      ring

/-! ## The mining scheduler: results -/

/-- C7 (as stated, refuted): at the boundary probabilities the draw decides. With the
probability `0.001` (the `float64` of that literal) the draw `0` starts a mining attempt, and
with the probability `0.999` the draw `0.999` starts none; both draws lie in `[0, 1)`. -/
theorem rollToMine_boundary_rolls :
    (roundFloat64 (1 / 1000) = float64_0_001 ∧ float64_0_001 ≤ float64_0_001 ∧
      ((0:ℚ) ≤ 0 ∧ (0:ℚ) < 1) ∧ rollToMine float64_0_001 0 = true) ∧
    (roundFloat64 (999 / 1000) = float64_0_999 ∧ float64_0_999 ≥ float64_0_999 ∧
      ((0:ℚ) ≤ float64_0_999 ∧ float64_0_999 < 1) ∧
      rollToMine float64_0_999 float64_0_999 = false) := by
  refine ⟨⟨float64_0_001_eq, le_refl _, ⟨le_refl _, by norm_num⟩, ?_⟩,
    ⟨float64_0_999_eq, le_refl _, ⟨by norm_num [float64_0_999], by norm_num [float64_0_999]⟩, ?_⟩⟩
  · norm_num [rollToMine, float64_0_001, float64_0_999]
  · norm_num [rollToMine, float64_0_001, float64_0_999]

/-- C7 (amended): for every probability strictly below `0.001` and every draw, `rollToMine`
returns false and the loop over the drawn miners starts no mining task; for every
probability strictly above `0.999` and every draw, `rollToMine` returns true and every
iteration of the loop starts a mining task (on which miner a started task calls `MiningOnce`
is left open); from `0.001` to `0.999`, both included, `rollToMine` returns whether the
draw is below the probability. -/
theorem rollToMine_thresholds {node : Type} (args : Args) (roll : ℚ) (rolls : Nat → ℚ)
    (i : Nat) (nds : List node) :
    (args.ForkProbability < float64_0_001 →
      rollToMine args.ForkProbability roll = false ∧ mineBlocksLoop args rolls i nds = []) ∧
    (float64_0_999 < args.ForkProbability →
      rollToMine args.ForkProbability roll = true ∧
      mineBlocksLoop args rolls i nds = List.range' i nds.length) ∧
    (float64_0_001 ≤ args.ForkProbability → args.ForkProbability ≤ float64_0_999 →
      rollToMine args.ForkProbability roll = decide (roll < args.ForkProbability)) := by
  have hlohi : float64_0_001 < float64_0_999 := by norm_num [float64_0_001, float64_0_999]
  refine ⟨fun hlo => ?_, fun hhi => ?_, fun hlo hhi => ?_⟩
  · have hr : ∀ r, rollToMine args.ForkProbability r = false := by
      intro r
      simp [rollToMine, hlo]
    refine ⟨hr roll, ?_⟩
    induction nds generalizing i with
    | nil => rfl
    | cons n rest ih => simp [mineBlocksLoop, hr, ih]
  · have hr : ∀ r, rollToMine args.ForkProbability r = true := by
      intro r
      have h1 : ¬ args.ForkProbability < float64_0_001 := not_lt.mpr (le_of_lt (hlohi.trans hhi))
      simp [rollToMine, h1, hhi]
    refine ⟨hr roll, ?_⟩
    induction nds generalizing i with
    | nil => rfl
    | cons n rest ih =>
      simp only [mineBlocksLoop, hr, if_true, ih, List.length_cons]
      rfl
  · have h1 : ¬ args.ForkProbability < float64_0_001 := not_lt.mpr hlo
    have h2 : ¬ args.ForkProbability > float64_0_999 := not_lt.mpr hhi
    simp [rollToMine, h1, h2]

theorem rollToMine_thresholds_witness :
    (rollToMine (1 / 2048) (1 / 4096) = false ∧
      mineBlocksLoop (⟨4, 30, 3, 1 / 2048⟩ : Args) (fun _ => 1 / 4096) 0 ["m1", "m2", "m3"] = []) ∧
    (rollToMine (4095 / 4096) (8191 / 8192) = true ∧
      mineBlocksLoop (⟨4, 30, 3, 4095 / 4096⟩ : Args) (fun _ => 8191 / 8192) 0 ["m1", "m2", "m3"]
        = List.range' 0 ["m1", "m2", "m3"].length) ∧
    rollToMine float64_0_001 (1 / 4096) = decide ((1 / 4096 : ℚ) < float64_0_001) :=
  ⟨(rollToMine_thresholds (⟨4, 30, 3, 1 / 2048⟩ : Args) (1 / 4096) (fun _ => 1 / 4096) 0
      ["m1", "m2", "m3"]).1 (by norm_num [float64_0_001]),
    (rollToMine_thresholds (⟨4, 30, 3, 4095 / 4096⟩ : Args) (8191 / 8192) (fun _ => 8191 / 8192) 0
      ["m1", "m2", "m3"]).2.1 (by norm_num [float64_0_999]),
    (rollToMine_thresholds (⟨4, 30, 3, float64_0_001⟩ : Args) (1 / 4096) (fun _ => 1 / 4096) 0
      ([] : List String)).2.2 (le_refl _) (by norm_num [float64_0_001, float64_0_999])⟩

/-! ## The churn manager: results -/

/-- C8 (as stated, refuted): with 3002399751580331 live miners and 4503599627370496 live
clients the client count is below 1.5 times the miner count, yet the product
`float64(miners) * 1.5` is rounded down to the client count and `nextRandomType` returns
`AnyNodeType`. -/
theorem nextRandomType_rounding :
    (0 ≤ (3002399751580331 : Int) ∧ 0 ≤ (4503599627370496 : Int)) ∧
    2 * (4503599627370496 : Int) < 3 * 3002399751580331 ∧
    nextRandomType (networkOf 3002399751580331 4503599627370496) = NodeType.AnyNodeType := by
  refine ⟨⟨by norm_num, by norm_num⟩, by norm_num, ?_⟩
  have hc : float64OfInt 4503599627370496 = 4503599627370496 := by
    have := float64OfInt_exact 4503599627370496 (by norm_num) (by norm_num)
    simpa using this
  have hm : float64OfInt 3002399751580331 = 3002399751580331 := by
    have := float64OfInt_exact 3002399751580331 (by norm_num) (by norm_num)
    simpa using this
  have hp : mulFloat64 3002399751580331 float64_1_5 = 4503599627370496 := by
    unfold mulFloat64 roundFloat64 float64_1_5
    rw [if_neg (by norm_num), if_pos (by norm_num),
      roundPos_eq_of _ 52 4503599627370496 (by norm_num) (by norm_num) (by norm_num)
        (by norm_num)]
    norm_num
  simp only [nextRandomType, networkOf, countsOf, hc, hm, hp]
  simp

/-- C8 (amended): for non-negative live counts with `3 * miners < 2^53`, `nextRandomType`
returns `ClientNodeType` exactly when `2 * clients < 3 * miners` (clients below 1.5 times
miners) and `AnyNodeType` otherwise; it never returns `MinerNodeType`. -/
theorem nextRandomType_spec (n : Network)
    (hm : 0 ≤ n.GetNodeCounts NodeType.MinerNodeType)
    (hc : 0 ≤ n.GetNodeCounts NodeType.ClientNodeType)
    (hsmall : 3 * n.GetNodeCounts NodeType.MinerNodeType < 2 ^ 53) :
    (nextRandomType n = NodeType.ClientNodeType ↔
      2 * n.GetNodeCounts NodeType.ClientNodeType < 3 * n.GetNodeCounts NodeType.MinerNodeType) ∧
    (nextRandomType n = NodeType.AnyNodeType ↔
      ¬ 2 * n.GetNodeCounts NodeType.ClientNodeType
        < 3 * n.GetNodeCounts NodeType.MinerNodeType) ∧
    nextRandomType n ≠ NodeType.MinerNodeType := by
  have hcmp : float64OfInt (n.GetNodeCounts NodeType.ClientNodeType)
        < mulFloat64 (float64OfInt (n.GetNodeCounts NodeType.MinerNodeType)) float64_1_5 ↔
      2 * n.GetNodeCounts NodeType.ClientNodeType
        < 3 * n.GetNodeCounts NodeType.MinerNodeType := by
    rw [mulFloat64_exact _ hm hsmall]
    by_cases hbig : n.GetNodeCounts NodeType.ClientNodeType < 2 ^ 53
    · rw [float64OfInt_exact _ hc hbig]
      rw [lt_div_iff₀ (by norm_num : (0:ℚ) < 2)]
      constructor
      · intro h
        have h' : ((n.GetNodeCounts NodeType.ClientNodeType * 2 : ℤ) : ℚ)
            < ((3 * n.GetNodeCounts NodeType.MinerNodeType : ℤ) : ℚ) := by
          push_cast; exact h
        have := Int.cast_lt.mp h'
        omega
      · intro h
        have h' : ((n.GetNodeCounts NodeType.ClientNodeType * 2 : ℤ) : ℚ)
            < ((3 * n.GetNodeCounts NodeType.MinerNodeType : ℤ) : ℚ) :=
          Int.cast_lt.mpr (by omega)
        push_cast at h'
        exact h'
    · have hge := float64OfInt_ge _ (not_lt.mp hbig)
      have hlt : (3 * (n.GetNodeCounts NodeType.MinerNodeType : ℚ)) / 2 < (2:ℚ) ^ (53:ℤ) := by
        have h' : ((3 * n.GetNodeCounts NodeType.MinerNodeType : ℤ) : ℚ)
            < ((2 ^ 53 : ℤ) : ℚ) := Int.cast_lt.mpr hsmall
        push_cast at h'
        rw [div_lt_iff₀ (by norm_num : (0:ℚ) < 2)]
        refine lt_trans h' ?_
        norm_num
      constructor
      · intro h
        exact absurd (lt_trans (lt_of_le_of_lt hge h) hlt) (lt_irrefl _)
      · intro h
        omega
  unfold nextRandomType
  simp only []
  by_cases h : float64OfInt (n.GetNodeCounts NodeType.ClientNodeType)
      < mulFloat64 (float64OfInt (n.GetNodeCounts NodeType.MinerNodeType)) float64_1_5
  · rw [if_pos h]
    have := hcmp.mp h
    simp [this]
  · rw [if_neg h]
    have : ¬ 2 * n.GetNodeCounts NodeType.ClientNodeType
        < 3 * n.GetNodeCounts NodeType.MinerNodeType := fun h' => h (hcmp.mpr h')
    simp [this]

theorem nextRandomType_spec_witness :
    ((nextRandomType (networkOf 10 10) = NodeType.ClientNodeType ↔ 2 * (10 : Int) < 3 * 10) ∧
      (nextRandomType (networkOf 10 10) = NodeType.AnyNodeType ↔ ¬ 2 * (10 : Int) < 3 * 10) ∧
      nextRandomType (networkOf 10 10) ≠ NodeType.MinerNodeType) ∧
    ((nextRandomType (networkOf 10 20) = NodeType.ClientNodeType ↔ 2 * (20 : Int) < 3 * 10) ∧
      (nextRandomType (networkOf 10 20) = NodeType.AnyNodeType ↔ ¬ 2 * (20 : Int) < 3 * 10) ∧
      nextRandomType (networkOf 10 20) ≠ NodeType.MinerNodeType) :=
  ⟨nextRandomType_spec (networkOf 10 10) (by decide) (by decide) (by decide),
    nextRandomType_spec (networkOf 10 20) (by decide) (by decide) (by decide)⟩

/-- C9: one tick of the grow loop issues no add-node request when the live size is at least
`MaxNodes`, and exactly one request, of the type given by `nextRandomType`, when the live
size is below `MaxNodes`. -/
theorem addAndRemoveNodesTick_cap (net : Network) (args : Args) :
    (net.Size ≥ args.MaxNodes → addAndRemoveNodesTick net args = []) ∧
    (net.Size < args.MaxNodes →
      addAndRemoveNodesTick net args = [nextRandomType net] ∧
      (addAndRemoveNodesTick net args).length = 1) := by
  constructor
  · intro h
    simp [addAndRemoveNodesTick, h]
  · intro h
    have h' : ¬ net.Size ≥ args.MaxNodes := not_le.mpr h
    simp [addAndRemoveNodesTick, h']

theorem addAndRemoveNodesTick_cap_witness :
    addAndRemoveNodesTick (networkOf 10 20) (⟨4, 30, 3, 1 / 2⟩ : Args) = [] ∧
    (addAndRemoveNodesTick (networkOf 10 10) (⟨4, 30, 3, 1 / 2⟩ : Args)
        = [nextRandomType (networkOf 10 10)] ∧
      (addAndRemoveNodesTick (networkOf 10 10) (⟨4, 30, 3, 1 / 2⟩ : Args)).length = 1) :=
  ⟨(addAndRemoveNodesTick_cap (networkOf 10 20) (⟨4, 30, 3, 1 / 2⟩ : Args)).1 (by decide),
    (addAndRemoveNodesTick_cap (networkOf 10 10) (⟨4, 30, 3, 1 / 2⟩ : Args)).2 (by decide)⟩

theorem count_alternating (n : Nat) :
    ((List.range n).map (fun i =>
        if i % 2 = 0 then NodeType.MinerNodeType else NodeType.ClientNodeType)).count
          NodeType.MinerNodeType = (n + 1) / 2 ∧
    ((List.range n).map (fun i =>
        if i % 2 = 0 then NodeType.MinerNodeType else NodeType.ClientNodeType)).count
          NodeType.ClientNodeType = n / 2 := by
  induction n with
  | zero => simp
  | succ k ih =>
    rw [List.range_succ, List.map_append, List.count_append, List.count_append, ih.1, ih.2]
    rcases Nat.mod_two_eq_zero_or_one k with h | h
    · simp only [List.map_cons, List.map_nil, h, if_true]
      simp
      omega
    · simp only [List.map_cons, List.map_nil, h]
      simp
      omega

/-- C10: for `StartNodes = n ≥ 0`, `addInitialNodes` issues exactly `n` add-node requests;
the request with creation index `i < n` has type Miner when `i` is even and Client when `i`
is odd, so that there are `ceil(n/2)` Miner and `floor(n/2)` Client requests and none of type
Any; for `n = 4` the types by index are Miner, Client, Miner, Client. -/
theorem addInitialNodes_alternates (args : Args) (n : Nat) (hn : args.StartNodes = n) :
    (addInitialNodes args).length = n ∧
    (∀ i, i < n → (addInitialNodes args)[i]? =
      some (if i % 2 = 0 then NodeType.MinerNodeType else NodeType.ClientNodeType)) ∧
    (addInitialNodes args).count NodeType.MinerNodeType = (n + 1) / 2 ∧
    (addInitialNodes args).count NodeType.ClientNodeType = n / 2 ∧
    NodeType.AnyNodeType ∉ addInitialNodes args ∧
    (n = 4 → addInitialNodes args =
      [NodeType.MinerNodeType, NodeType.ClientNodeType, NodeType.MinerNodeType,
        NodeType.ClientNodeType]) := by
  have hdef : addInitialNodes args = (List.range n).map (fun i =>
      if i % 2 = 0 then NodeType.MinerNodeType else NodeType.ClientNodeType) := by
    unfold addInitialNodes
    rw [hn, Int.toNat_natCast]
  rw [hdef]
  refine ⟨by simp, ?_, (count_alternating n).1, (count_alternating n).2, ?_, ?_⟩
  · intro i hi
    simp [List.getElem?_map, List.getElem?_range hi]
  · intro hmem
    obtain ⟨i, _, hi⟩ := List.mem_map.mp hmem
    split at hi <;> cases hi
  · intro h4
    subst h4
    rfl

theorem addInitialNodes_alternates_witness :
    (addInitialNodes (⟨4, 30, 3, 1 / 2⟩ : Args)).length = 4 ∧
    (∀ i, i < 4 → (addInitialNodes (⟨4, 30, 3, 1 / 2⟩ : Args))[i]? =
      some (if i % 2 = 0 then NodeType.MinerNodeType else NodeType.ClientNodeType)) ∧
    (addInitialNodes (⟨4, 30, 3, 1 / 2⟩ : Args)).count NodeType.MinerNodeType = (4 + 1) / 2 ∧
    (addInitialNodes (⟨4, 30, 3, 1 / 2⟩ : Args)).count NodeType.ClientNodeType = 4 / 2 ∧
    NodeType.AnyNodeType ∉ addInitialNodes (⟨4, 30, 3, 1 / 2⟩ : Args) ∧
    ((4 : Nat) = 4 → addInitialNodes (⟨4, 30, 3, 1 / 2⟩ : Args) =
      [NodeType.MinerNodeType, NodeType.ClientNodeType, NodeType.MinerNodeType,
        NodeType.ClientNodeType]) :=
  addInitialNodes_alternates (⟨4, 30, 3, 1 / 2⟩ : Args) 4 rfl

end FilNetSim
